import Mathlib

/-!
# Shallow embedding of the music-visualizer render pipeline

Source: `src/src/MusicVisualizer.jsx`.  The per-frame `draw` callback
(lines 195-342) together with `initParticles` (53-66), `handleResize`
(184-188) and the attachment effect (137-181) form the reactive core.

Modelling conventions:
* JavaScript numbers are modelled as exact rationals `ℚ`; the numeric
  literals of the source (0.06, 0.08, 1.6, ...) are taken at their exact
  decimal value.  `Math.PI` is modelled by `mathPI`, the exact rational
  value of the IEEE-754 double that `Math.PI` denotes.
* `freqData` / `timeData` are `Uint8Array`s, modelled as `List ℕ` with
  entries in `[0,255]`; the normalized magnitude of bin `b` is `b / 255`.
* An out-of-range indexing that the source guards with `|| 0` is modelled
  by `List.getD _ _ 0`; an unguarded `0/0` (which is `NaN` in JavaScript
  and propagates through arithmetic) is modelled by `Option ℚ` with
  `none` for `NaN`.
* `Math.random()` is modelled as a stream `rand : ℕ → ℚ` of draws from
  `[0,1)`; the i-th particle consumes draws `6*i .. 6*i+5` in source
  order.
-/

namespace MusicVisualizer

/-- `Uint8Array` contents: a list of byte values. -/
abbrev ByteArr := List ℕ

/-- The exact rational value of the IEEE-754 double `Math.PI`
(`0x400921FB54442D18`). -/
def mathPI : ℚ := 884279719003555 / 281474976710656

/-! ## Particles (`initParticles`, source lines 53-66) -/

/-- One particle record, fields exactly as pushed in `initParticles`
plus nothing else (source lines 56-63). -/
structure Particle where
  baseAngle : ℚ
  distance : ℚ
  size : ℚ
  baseAlpha : ℚ
  rotationSpeed : ℚ
  pulseMul : ℚ
  deriving Repr, DecidableEq

/-- `initParticles(count, radius)` (source lines 53-66).  Particle `i`
consumes the random draws `rand (6*i) .. rand (6*i+5)` in the order the
source calls `Math.random()`: baseAngle, distance, size, baseAlpha,
rotationSpeed, pulseMul. -/
def initParticles (count : ℕ) (radius : ℚ) (rand : ℕ → ℚ) : List Particle :=
  (List.range count).map fun i =>
    { baseAngle := rand (6 * i) * mathPI * 2
      distance := radius + 20 + rand (6 * i + 1) * 240
      size := 6 + rand (6 * i + 2) * 30
      baseAlpha := 0.06 + rand (6 * i + 3) * 0.22
      rotationSpeed := (rand (6 * i + 4) - 0.5) * 0.002
      pulseMul := 0.6 + rand (6 * i + 5) * 1.4 }

/-! ## Bass energy estimation (source lines 207-220) -/

/-- `bassBinCount = Math.max(4, Math.floor(bufferLength * 0.06))`
(source line 208). -/
def bassBinCount (N : ℕ) : ℕ := max 4 (N * 6 / 100)

/-- `bassAvg = bassSum / bassBinCount / 255` where `bassSum` sums the
lowest `bassBinCount` bins (source lines 209-211).  The loop reads
`freqData[0] .. freqData[bassBinCount-1]`; in the source these reads are
always in bounds (`bufferLength = 1024`), and theorems about `rawBass`
carry the in-bounds hypothesis `bassBinCount N ≤ N`. -/
def rawBass (freq : ByteArr) : ℚ :=
  let k := bassBinCount freq.length
  (((freq.take k).sum : ℕ) : ℚ) / k / 255

/-- `smoothFactor = 0.08` (source line 214). -/
def smoothFactor : ℚ := 0.08

/-- One EMA update: `smoothedBass = last*(1-smoothFactor) + bassAvg*smoothFactor`
(source line 216). -/
def smoothStep (last raw : ℚ) : ℚ := last * (1 - smoothFactor) + raw * smoothFactor

/-- `pulse = Math.min(1, smoothedBass * 1.6)` (source line 220). -/
def pulseOf (smoothed : ℚ) : ℚ := min 1 (smoothed * 1.6)

/-- One bass-estimator call: returns the new smoothing state and the
pulse (source lines 208-220). -/
def bassTick (last : ℚ) (freq : ByteArr) : ℚ × ℚ :=
  let s := smoothStep last (rawBass freq)
  (s, pulseOf s)

/-- The pulse emitted at each tick of a run of the bass estimator,
threading the smoothing state (`lastBassRef`) from `st` through the
successive frequency frames. -/
def runPulses : ℚ → List ByteArr → List ℚ
  | _, [] => []
  | s, f :: fs =>
    let s' := smoothStep s (rawBass f)
    pulseOf s' :: runPulses s' fs

/-- The smoothing state after `n` ticks of constant raw bass `c`,
starting from state `s0` (iterating source line 216). -/
def smoothIter (s0 c : ℚ) : ℕ → ℚ
  | 0 => s0
  | n + 1 => smoothStep (smoothIter s0 c n) c

/-! ## Spectrum ring (source lines 272-297) -/

/-- `barsCount = 128` (source line 273). -/
def barsCount : ℕ := 128

/-- `step = Math.floor(bufferLength / barsCount)` (source line 274). -/
def stepOf (N : ℕ) : ℕ := N / barsCount

/-- `maxBarLen = Math.min(W,H)*0.28 + pulse*Math.min(W,H)*0.18`
(source line 275). -/
def maxBarLen (W H pulse : ℚ) : ℚ := min W H * 0.28 + pulse * min W H * 0.18

/-- The block sum for bar `i`: `for j in [0,s) sum += freqData[i*s+j] || 0`
(source line 279); out-of-range reads contribute 0 via `|| 0`. -/
def blockSum (freq : ByteArr) (i s : ℕ) : ℕ :=
  ((List.range s).map fun j => freq.getD (i * s + j) 0).sum

/-- `v = sum / step / 255` (source line 280).  When `step = 0` this is
JavaScript's `0/0 = NaN`, modelled as `none`; `NaN` propagates through
the later multiplication. -/
def barValue (freq : ByteArr) (i : ℕ) : Option ℚ :=
  let s := stepOf freq.length
  if s = 0 then none else some (((blockSum freq i s : ℕ) : ℚ) / s / 255)

/-- `barLen = v * maxBarLen` (source line 281); `NaN` propagates. -/
def barLen (freq : ByteArr) (W H pulse : ℚ) (i : ℕ) : Option ℚ :=
  (barValue freq i).map (· * maxBarLen W H pulse)

/-- The 128 bar lengths drawn by the loop at source lines 276-297. -/
def spectrumBars (freq : ByteArr) (W H pulse : ℚ) : List (Option ℚ) :=
  (List.range barsCount).map (barLen freq W H pulse)

/-! ## Waveform ring (source lines 299-319) -/

/-- `wavePoints = 256` (source line 301). -/
def wavePoints : ℕ := 256

/-- `idx = Math.floor((i / wavePoints) * timeData.length)` (source
line 305); for `i < 256` and `M ≤ 2^45` the double arithmetic is exact,
so this equals `⌊i*M/256⌋`. -/
def waveIdx (i M : ℕ) : ℕ := i * M / wavePoints

/-- `waveAmp = Math.min(W,H)*0.06 + pulse*Math.min(W,H)*0.08`
(source line 302). -/
def waveAmp (W H pulse : ℚ) : ℚ := min W H * 0.06 + pulse * min W H * 0.08

/-- `val = (timeData[idx] - 128) / 128` (source line 306).  The read is
in bounds whenever `timeData` is nonempty (see `waveIdx_lt_of_pos`);
theorems carry that hypothesis. -/
def waveVal (td : ByteArr) (i : ℕ) : ℚ :=
  ((td.getD (waveIdx i td.length) 0 : ℚ) - 128) / 128

/-- `r = baseRadius + val * waveAmp` (source line 307). -/
def waveRadius (td : ByteArr) (baseR amp : ℚ) (i : ℕ) : ℚ :=
  baseR + waveVal td i * amp

/-- The 256 point radii of the waveform ring (loop at source
lines 303-313). -/
def waveRadii (td : ByteArr) (baseR amp : ℚ) : List ℚ :=
  (List.range wavePoints).map (waveRadius td baseR amp)

/-- The drawn segments of the waveform polyline.  The source issues
`moveTo p0`, `lineTo p1 .. p255`, then `closePath()` (line 314), which
adds the segment from `p255` back to `p0`; cyclically pairing each
radius with the next captures exactly those 256 segments. -/
def waveSegments (td : ByteArr) (baseR amp : ℚ) : List (ℚ × ℚ) :=
  let rs := waveRadii td baseR amp
  rs.zip (rs.rotate 1)

/-! ## Rotation accumulator and lifecycle state (source lines 173-192, 244) -/

/-- `rotation += 0.0009 + pulse * 0.006` (source line 244). -/
def rotationStep (rotation pulse : ℚ) : ℚ := rotation + (0.0009 + pulse * 0.006)

/-- The per-attachment mutable state captured by the effect closure:
canvas device-pixel size, derived center, `baseRadius` (a `const`,
source line 177), `rotation`, the bass smoothing state `lastBassRef`,
and the particle collection `particlesRef`. -/
structure VisState where
  width : ℕ
  height : ℕ
  centerX : ℚ
  centerY : ℚ
  baseRadius : ℚ
  rotation : ℚ
  lastBass : ℚ
  particles : List Particle
  deriving Repr

/-- Attachment of a new audio source (effect body, source lines
174-192): geometry is recomputed, `rotation = 0`, `lastBassRef = 0`,
and `initParticles(70, baseRadius)` builds a fresh collection. -/
def attachSource (W H : ℕ) (rand : ℕ → ℚ) : VisState :=
  let baseR : ℚ := (min W H : ℕ) * 0.12
  { width := W
    height := H
    centerX := (W : ℚ) / 2
    centerY := (H : ℚ) / 2
    baseRadius := baseR
    rotation := 0
    lastBass := 0
    particles := initParticles 70 baseR rand }

/-- `handleResize` (source lines 184-188): `resizeCanvas` updates the
canvas device-pixel size to the new `W × H`, then `centerX`/`centerY`
are recomputed.  Nothing else is touched: `baseRadius` is a `const` of
the effect closure and the particle collection is not reinitialized. -/
def handleResize (st : VisState) (W H : ℕ) : VisState :=
  { st with
    width := W
    height := H
    centerX := (W : ℚ) / 2
    centerY := (H : ℚ) / 2 }

/-! ## Helper lemmas -/

/-- `mathPI` is positive. -/
lemma mathPI_pos : (0 : ℚ) < mathPI := by norm_num [mathPI]

/-- In-bounds bound for the waveform sampling index. -/
lemma waveIdx_lt_of_pos {i M : ℕ} (hM : 0 < M) (hi : i < wavePoints) :
    waveIdx i M < M := by
  have h : i * M < M * wavePoints := by
    rw [mul_comm M wavePoints]
    exact Nat.mul_lt_mul_of_lt_of_le hi (le_refl M) hM
  exact (Nat.div_lt_iff_lt_mul (by norm_num [wavePoints])).mpr h

/-- Summing the normalized entries of a byte list equals the normalized
sum. -/
lemma sum_map_div255 (l : List ℕ) :
    ((l.map fun b : ℕ => (b : ℚ) / 255).sum) = ((l.sum : ℕ) : ℚ) / 255 := by
  induction l with
  | nil => simp
  | cons a l ih => simp [ih, add_div]

/-- The raw bass average is nonnegative. -/
lemma rawBass_nonneg (freq : ByteArr) : 0 ≤ rawBass freq := by
  unfold rawBass
  positivity

/-- With byte entries bounded by 255, the raw bass average is at
most 1. -/
lemma rawBass_le_one (freq : ByteArr) (hb : ∀ b ∈ freq, b ≤ 255) :
    rawBass freq ≤ 1 := by
  unfold rawBass
  set k := bassBinCount freq.length with hk
  have hk4 : 4 ≤ k := le_max_left _ _
  have hsum : (freq.take k).sum ≤ k * 255 := by
    have h1 : (freq.take k).sum ≤ (freq.take k).length • 255 :=
      List.sum_le_card_nsmul _ 255
        (fun b hbmem => hb b (List.mem_of_mem_take hbmem))
    rw [smul_eq_mul] at h1
    calc (freq.take k).sum ≤ (freq.take k).length * 255 := h1
      _ ≤ k * 255 := Nat.mul_le_mul_right 255 (List.length_take_le _ _)
  rw [div_div]
  rw [div_le_one (by positivity)]
  calc (((freq.take k).sum : ℕ) : ℚ) ≤ ((k * 255 : ℕ) : ℚ) := by exact_mod_cast hsum
    _ = (k : ℚ) * 255 := by push_cast; ring

/-- The EMA step stays in `[0,1]` when the state and the raw value are
in `[0,1]`. -/
lemma smoothStep_mem_unit {s r : ℚ} (h0 : 0 ≤ s) (h1 : s ≤ 1)
    (r0 : 0 ≤ r) (r1 : r ≤ 1) :
    0 ≤ smoothStep s r ∧ smoothStep s r ≤ 1 := by
  unfold smoothStep smoothFactor
  constructor <;> nlinarith

/-- The clamp in `pulseOf` keeps the pulse in `[0,1]` for nonnegative
state. -/
lemma pulseOf_mem_unit {s : ℚ} (h0 : 0 ≤ s) :
    0 ≤ pulseOf s ∧ pulseOf s ≤ 1 := by
  unfold pulseOf
  exact ⟨le_min (by norm_num) (by nlinarith), min_le_left _ _⟩

/-- All pulses of a run are in `[0,1]` whenever the starting state is
and each frame has byte entries. -/
lemma runPulses_mem_unit (freqs : List ByteArr)
    (hb : ∀ f ∈ freqs, ∀ b ∈ f, b ≤ 255) :
    ∀ s, 0 ≤ s → s ≤ 1 → ∀ p ∈ runPulses s freqs, 0 ≤ p ∧ p ≤ 1 := by
  induction freqs with
  | nil => intro s _ _ p hp; simp [runPulses] at hp
  | cons f fs ih =>
    intro s hs0 hs1 p hp
    have hr0 := rawBass_nonneg f
    have hr1 := rawBass_le_one f (hb f (List.mem_cons_self f fs))
    obtain ⟨hs0', hs1'⟩ := smoothStep_mem_unit hs0 hs1 hr0 hr1
    simp only [runPulses, List.mem_cons] at hp
    rcases hp with rfl | hp
    · exact pulseOf_mem_unit hs0'
    · exact ih (fun g hg => hb g (List.mem_cons_of_mem f hg)) _ hs0' hs1' p hp

/-- The drift of the smoothing iterate from a constant target decays
geometrically. -/
lemma smoothIter_sub (s0 c : ℚ) (n : ℕ) :
    smoothIter s0 c n - c = (1 - smoothFactor) ^ n * (s0 - c) := by
  induction n with
  | zero => simp [smoothIter]
  | succ n ih =>
    have h : smoothIter s0 c (n + 1) - c =
        (1 - smoothFactor) * (smoothIter s0 c n - c) := by
      show smoothStep (smoothIter s0 c n) c - c = _
      unfold smoothStep
      ring
    rw [h, ih, pow_succ]
    ring

/-! ## Claims -/

/-- C7: `initParticles count radius rand` yields exactly `count`
particles; whenever every random draw lies in `[0,1)`, each particle has
`distance ∈ [radius+20, radius+260]`, `size ∈ [6,36]`,
`baseAlpha ∈ [0.06,0.28]`, `rotationSpeed ∈ [-0.001,0.001]`,
`pulseMul ∈ [0.6,2]`, and `baseAngle ∈ [0, 2·Math.PI)`. -/
theorem initParticles_spec (count : ℕ) (radius : ℚ) (rand : ℕ → ℚ)
    (hr : ∀ n, 0 ≤ rand n ∧ rand n < 1) :
    (initParticles count radius rand).length = count ∧
    ∀ p ∈ initParticles count radius rand,
      radius + 20 ≤ p.distance ∧ p.distance ≤ radius + 260 ∧
      6 ≤ p.size ∧ p.size ≤ 36 ∧
      (0.06 : ℚ) ≤ p.baseAlpha ∧ p.baseAlpha ≤ 0.28 ∧
      -(0.001 : ℚ) ≤ p.rotationSpeed ∧ p.rotationSpeed ≤ 0.001 ∧
      (0.6 : ℚ) ≤ p.pulseMul ∧ p.pulseMul ≤ 2 ∧
      0 ≤ p.baseAngle ∧ p.baseAngle < 2 * mathPI := by
  constructor
  · simp [initParticles]
  · intro p hp
    simp only [initParticles, List.mem_map, List.mem_range] at hp
    obtain ⟨i, -, rfl⟩ := hp
    obtain ⟨ha0, ha1⟩ := hr (6 * i)
    obtain ⟨hd0, hd1⟩ := hr (6 * i + 1)
    obtain ⟨hs0, hs1⟩ := hr (6 * i + 2)
    obtain ⟨hb0, hb1⟩ := hr (6 * i + 3)
    obtain ⟨hv0, hv1⟩ := hr (6 * i + 4)
    obtain ⟨hm0, hm1⟩ := hr (6 * i + 5)
    have hpi := mathPI_pos
    refine ⟨by nlinarith, by nlinarith, by nlinarith, by nlinarith, by nlinarith,
      by nlinarith, by nlinarith, by nlinarith, by nlinarith, by nlinarith,
      by nlinarith, by nlinarith⟩

/-- Witness for C7 at `count = 2`, `radius = 5`, the constant-zero
random stream. -/
theorem initParticles_spec_witness :
    (initParticles 2 5 fun _ => 0).length = 2 ∧
    ∀ p ∈ initParticles 2 5 fun _ => 0,
      (5 : ℚ) + 20 ≤ p.distance ∧ p.distance ≤ 5 + 260 ∧
      6 ≤ p.size ∧ p.size ≤ 36 ∧
      (0.06 : ℚ) ≤ p.baseAlpha ∧ p.baseAlpha ≤ 0.28 ∧
      -(0.001 : ℚ) ≤ p.rotationSpeed ∧ p.rotationSpeed ≤ 0.001 ∧
      (0.6 : ℚ) ≤ p.pulseMul ∧ p.pulseMul ≤ 2 ∧
      0 ≤ p.baseAngle ∧ p.baseAngle < 2 * mathPI :=
  initParticles_spec 2 5 (fun _ => 0) (fun _ => ⟨le_refl 0, by norm_num⟩)

/-- C1: one bass-estimator call on a magnitude array whose lowest
`max(4, ⌊N·0.06⌋)` bins exist and whose entries are bytes (normalized
entries in `[0,1]`), from a nonnegative smoothing state, computes
`rawBass` as the mean of the lowest `max(4, ⌊N·0.06⌋)` normalized bins,
updates the state to `smoothedBass·(1-0.08) + rawBass·0.08`, and returns
`pulse = clamp(smoothedBass·1.6, 0, 1)`. -/
theorem bassTick_spec (last : ℚ) (freq : ByteArr)
    (_hk : bassBinCount freq.length ≤ freq.length)
    (_hb : ∀ b ∈ freq, b ≤ 255)
    (hlast : 0 ≤ last) :
    rawBass freq =
      (((freq.take (bassBinCount freq.length)).map
          fun b : ℕ => (b : ℚ) / 255).sum) / (bassBinCount freq.length) ∧
    (bassTick last freq).1 = last * (1 - 0.08) + rawBass freq * 0.08 ∧
    (bassTick last freq).2 =
      max 0 (min 1 ((bassTick last freq).1 * 1.6)) := by
  refine ⟨?_, ?_, ?_⟩
  · rw [sum_map_div255]
    unfold rawBass
    rw [div_div, div_div, mul_comm]
  · simp only [bassTick]
    unfold smoothStep smoothFactor
    norm_num
  · simp only [bassTick]
    have h0 : 0 ≤ smoothStep last (rawBass freq) := by
      have hr := rawBass_nonneg freq
      unfold smoothStep smoothFactor
      nlinarith
    unfold pulseOf
    exact (max_eq_right (le_min (by norm_num)
      (by nlinarith : (0 : ℚ) ≤ smoothStep last (rawBass freq) * 1.6))).symm

/-- Witness for C1 at `freq = [255,255,255,255]`, state 0. -/
theorem bassTick_spec_witness :
    rawBass [255, 255, 255, 255] =
      ((([255, 255, 255, 255] : ByteArr).take
          (bassBinCount ([255, 255, 255, 255] : ByteArr).length)).map
            fun b : ℕ => (b : ℚ) / 255).sum /
        (bassBinCount ([255, 255, 255, 255] : ByteArr).length) ∧
    (bassTick 0 [255, 255, 255, 255]).1 =
      0 * (1 - 0.08) + rawBass [255, 255, 255, 255] * 0.08 ∧
    (bassTick 0 [255, 255, 255, 255]).2 =
      max 0 (min 1 ((bassTick 0 [255, 255, 255, 255]).1 * 1.6)) :=
  bassTick_spec 0 [255, 255, 255, 255] (by norm_num [bassBinCount])
    (by decide) (le_refl 0)

/-- C2: over any sequence of valid magnitude frames (byte entries, i.e.
normalized entries in `[0,1]`), starting from the reset smoothing state
0, the pulse produced at every tick lies in `[0,1]`. -/
theorem pulse_in_unit (freqs : List ByteArr)
    (hb : ∀ f ∈ freqs, ∀ b ∈ f, b ≤ 255) :
    ∀ p ∈ runPulses 0 freqs, 0 ≤ p ∧ p ≤ 1 :=
  runPulses_mem_unit freqs hb 0 (le_refl 0) (by norm_num)

/-- Witness for C2: the first pulse of a concrete one-frame history is
in `[0,1]`. -/
theorem pulse_in_unit_witness :
    0 ≤ pulseOf (smoothStep 0 (rawBass [255, 255, 255, 255])) ∧
    pulseOf (smoothStep 0 (rawBass [255, 255, 255, 255])) ≤ 1 :=
  pulse_in_unit [[255, 255, 255, 255]] (by decide) _ (by simp [runPulses])

/-- C5: degenerate input is not an error: for any run of all-zero
magnitude arrays (with the bass window in bounds, as in the source where
`N = 1024`) starting from the reset state 0, every tick yields
`pulse = 0`. -/
theorem degenerate_pulse_zero (freqs : List ByteArr)
    (_hk : ∀ f ∈ freqs, bassBinCount f.length ≤ f.length)
    (hz : ∀ f ∈ freqs, ∀ b ∈ f, b = 0) :
    ∀ p ∈ runPulses 0 freqs, p = 0 := by
  revert _hk hz
  induction freqs with
  | nil => intro _ _ p hp; simp [runPulses] at hp
  | cons f fs ih =>
    intro _hk hz p hp
    have hraw : rawBass f = 0 := by
      have hsum : (f.take (bassBinCount f.length)).sum = 0 :=
        List.sum_eq_zero fun x hx =>
          hz f (List.mem_cons_self f fs) x (List.mem_of_mem_take hx)
      simp [rawBass, hsum]
    have hs : smoothStep 0 (rawBass f) = 0 := by
      rw [hraw]; unfold smoothStep; ring
    simp only [runPulses, List.mem_cons] at hp
    rw [hs] at hp
    rcases hp with rfl | hp
    · unfold pulseOf; norm_num
    · exact ih (fun g hg => _hk g (List.mem_cons_of_mem f hg))
        (fun g hg => hz g (List.mem_cons_of_mem f hg)) p hp

/-- Witness for C5: the pulse of a concrete all-zero frame from the
reset state is 0. -/
theorem degenerate_pulse_zero_witness :
    pulseOf (smoothStep 0 (rawBass [0, 0, 0, 0])) = 0 :=
  degenerate_pulse_zero [[0, 0, 0, 0]] (by decide) (by decide) _
    (by simp [runPulses])

/-- C8: under a constant raw-bass stream `c ∈ [0,1]`, with the fixed
smoothing factor 0.08, the smoothed bass converges to `c`: for every
`ε > 0` there is a tick count after which `|smoothedBass - c| < ε`. -/
theorem smoothing_converges (s0 c : ℚ) (_h0 : 0 ≤ c) (_h1 : c ≤ 1)
    (ε : ℚ) (hε : 0 < ε) :
    ∃ T : ℕ, ∀ t, T ≤ t → |smoothIter s0 c t - c| < ε := by
  obtain ⟨T, hT⟩ :=
    exists_pow_lt_of_lt_one (x := ε / (|s0 - c| + 1)) (y := 1 - smoothFactor)
      (div_pos hε (by positivity)) (by norm_num [smoothFactor])
  refine ⟨T, fun t ht => ?_⟩
  rw [smoothIter_sub, abs_mul, abs_pow,
    abs_of_nonneg (show (0 : ℚ) ≤ 1 - smoothFactor by norm_num [smoothFactor])]
  set A := |s0 - c| with hA
  have hA0 : 0 ≤ A := abs_nonneg _
  have hp0 : (0 : ℚ) ≤ (1 - smoothFactor) ^ T :=
    pow_nonneg (by norm_num [smoothFactor]) _
  have hmono : (1 - smoothFactor) ^ t ≤ (1 - smoothFactor) ^ T :=
    pow_le_pow_of_le_one (by norm_num [smoothFactor])
      (by norm_num [smoothFactor]) ht
  calc (1 - smoothFactor) ^ t * A
      ≤ (1 - smoothFactor) ^ T * A := mul_le_mul_of_nonneg_right hmono hA0
    _ ≤ (1 - smoothFactor) ^ T * (A + 1) :=
        mul_le_mul_of_nonneg_left (by linarith) hp0
    _ < (ε / (A + 1)) * (A + 1) := mul_lt_mul_of_pos_right hT (by positivity)
    _ = ε := div_mul_cancel₀ ε (by positivity)

/-- Witness for C8 at `s0 = 0`, `c = 1`, `ε = 1/10`. -/
theorem smoothing_converges_witness :
    ∃ T : ℕ, ∀ t, T ≤ t → |smoothIter 0 1 t - 1| < 1 / 10 :=
  smoothing_converges 0 1 (by norm_num) (by norm_num) (1 / 10) (by norm_num)

/-- C9: on every tick with `pulse ∈ [0,1]` the rotation accumulator
strictly increases, by exactly `0.0009 + pulse*0.006`; a resize leaves
it unchanged, and only a full pipeline restart (`attachSource`) resets
it to 0. -/
theorem rotation_monotone (st : VisState) (W H : ℕ) (rand : ℕ → ℚ)
    (rot pulse : ℚ) (h0 : 0 ≤ pulse) (_h1 : pulse ≤ 1) :
    rot < rotationStep rot pulse ∧
    rotationStep rot pulse = rot + (0.0009 + pulse * 0.006) ∧
    (handleResize st W H).rotation = st.rotation ∧
    (attachSource W H rand).rotation = 0 := by
  refine ⟨?_, rfl, rfl, rfl⟩
  unfold rotationStep
  nlinarith

/-- Witness for C9 at a concrete state, resize and pulse. -/
theorem rotation_monotone_witness :
    (0 : ℚ) < rotationStep 0 (1/2) ∧
    rotationStep 0 (1/2) = 0 + (0.0009 + (1/2) * 0.006) ∧
    (handleResize (attachSource 10 10 fun _ => 0) 20 30).rotation =
      (attachSource 10 10 fun _ => 0).rotation ∧
    (attachSource 20 30 fun _ => 0).rotation = 0 :=
  rotation_monotone (attachSource 10 10 fun _ => 0) 20 30 (fun _ => 0) 0 (1/2)
    (by norm_num) (by norm_num)

/-- C3 counterexample: on the all-zero four-bin array (length < 128,
so `step = ⌊N/128⌋ = 0`), bar 0's block average is the unguarded
`0/0` (JavaScript `NaN`, modelled `none`), so its bar length is `NaN`,
not 0: the dividing-by-`step` is not guarded and the bar lengths of an
all-zero short array are not all 0. -/
theorem spectrum_claim_false :
    barLen (List.replicate 4 0) 100 100 0 0 = none ∧
    ¬ (∀ l ∈ spectrumBars (List.replicate 4 0) 100 100 0, l = some 0) := by
  have h0 : barLen (List.replicate 4 0) 100 100 0 0 = none := by
    simp [barLen, barValue, stepOf, barsCount]
  refine ⟨h0, fun hall => ?_⟩
  have hmem : barLen (List.replicate 4 0) 100 100 0 0 ∈
      spectrumBars (List.replicate 4 0) 100 100 0 :=
    List.mem_map.mpr ⟨0, by simp [barsCount], rfl⟩
  have := hall _ hmem
  rw [h0] at this
  exact Option.noConfusion this

/-- C3 (amended): the spectrum ring always draws exactly 128 bars; for
an all-zero magnitude array with at least 128 bins (`step ≥ 1`), every
bar length is 0.  (For fewer than 128 bins, `step = 0` and the block
average `0/0` is NaN, unguarded — see the counterexample.) -/
theorem spectrum_spec (freq : ByteArr) (W H pulse : ℚ)
    (hz : ∀ b ∈ freq, b = 0) (hN : 128 ≤ freq.length) :
    (∀ g : ByteArr, (spectrumBars g W H pulse).length = 128) ∧
    ∀ l ∈ spectrumBars freq W H pulse, l = some 0 := by
  constructor
  · intro g
    simp [spectrumBars, barsCount]
  · intro l hl
    obtain ⟨i, -, rfl⟩ := List.mem_map.mp hl
    have hstep : stepOf freq.length ≠ 0 := by
      unfold stepOf barsCount
      omega
    have hget : ∀ n : ℕ, freq.getD n 0 = 0 := by
      intro n
      by_cases h : n < freq.length
      · rw [List.getD_eq_getElem _ _ h]
        exact hz _ (List.getElem_mem _)
      · exact List.getD_eq_default _ _ (le_of_not_lt h)
    have hsum : blockSum freq i (stepOf freq.length) = 0 := by
      unfold blockSum
      exact List.sum_eq_zero fun x hx => by
        obtain ⟨j, -, rfl⟩ := List.mem_map.mp hx
        exact hget _
    simp [barLen, barValue, hstep, hsum]

/-- Witness for C3 (amended) at the 128-bin all-zero array. -/
theorem spectrum_spec_witness :
    (∀ g : ByteArr, (spectrumBars g 100 100 0).length = 128) ∧
    ∀ l ∈ spectrumBars (List.replicate 128 0) 100 100 0, l = some 0 :=
  spectrum_spec (List.replicate 128 0) 100 100 0 (by simp) (by simp)

/-- C4 counterexample: attach at a 100×100 surface with the
constant-zero random stream (so `baseRadius = 12` and every particle
distance is 32), then resize to 1000×1000.  `min(W,H)` grows by 900 and
the base radius the spec derives (`min(W,H)·0.12`) would become 120 —
a material change — yet the particle collection is exactly the old one:
every distance stays 32, below the `newRadius + 20 = 140` floor that
reinitialization would enforce, and the stored `baseRadius` stays 12. -/
theorem resize_claim_false :
    ((min 1000 1000 : ℚ) * 0.12 = 120) ∧
    (attachSource 100 100 fun _ => 0).baseRadius = 12 ∧
    (handleResize (attachSource 100 100 fun _ => 0) 1000 1000).baseRadius = 12 ∧
    (handleResize (attachSource 100 100 fun _ => 0) 1000 1000).particles =
      (attachSource 100 100 fun _ => 0).particles ∧
    ∀ p ∈ (handleResize (attachSource 100 100 fun _ => 0) 1000 1000).particles,
      p.distance = 32 ∧ ¬ ((120 : ℚ) + 20 ≤ p.distance) := by
  refine ⟨by norm_num, by norm_num [attachSource], by norm_num [attachSource, handleResize],
    rfl, ?_⟩
  intro p hp
  simp only [handleResize, attachSource, initParticles, List.mem_map,
    List.mem_range] at hp
  obtain ⟨i, -, rfl⟩ := hp
  norm_num

/-- C4 (amended): a resize, of any magnitude, never reinitializes the
particle field and never recomputes `baseRadius` (a `const` of the
attachment closure): it leaves the particle collection — hence particle
count and distances — the rotation and the smoothing state unchanged,
and only updates the surface width, height and center.  Particles are
reinitialized only by `attachSource`. -/
theorem handleResize_spec (st : VisState) (W H : ℕ) :
    (handleResize st W H).particles = st.particles ∧
    (handleResize st W H).baseRadius = st.baseRadius ∧
    (handleResize st W H).rotation = st.rotation ∧
    (handleResize st W H).lastBass = st.lastBass ∧
    (handleResize st W H).width = W ∧
    (handleResize st W H).height = H ∧
    (handleResize st W H).centerX = (W : ℚ) / 2 ∧
    (handleResize st W H).centerY = (H : ℚ) / 2 :=
  ⟨rfl, rfl, rfl, rfl, rfl, rfl, rfl, rfl⟩

/-- C6: the waveform ring has exactly 256 point radii and, with
`closePath`, 256 drawn segments (a closed loop); for a nonempty
constant-128 time-domain array every point radius equals `baseRadius`,
for every pulse (and surface size). -/
theorem waveform_spec (td : ByteArr) (baseR W H pulse : ℚ)
    (hM : 0 < td.length) (hc : ∀ b ∈ td, b = 128) :
    (waveRadii td baseR (waveAmp W H pulse)).length = 256 ∧
    (∀ r ∈ waveRadii td baseR (waveAmp W H pulse), r = baseR) ∧
    (waveSegments td baseR (waveAmp W H pulse)).length = 256 := by
  refine ⟨by simp [waveRadii, wavePoints], ?_, by
    simp [waveSegments, waveRadii, wavePoints]⟩
  intro r hr
  obtain ⟨i, hi, rfl⟩ := List.mem_map.mp hr
  rw [List.mem_range] at hi
  have hidx : waveIdx i td.length < td.length :=
    waveIdx_lt_of_pos hM (by simpa [wavePoints] using hi)
  have hval : waveVal td i = 0 := by
    unfold waveVal
    rw [List.getD_eq_getElem _ _ hidx]
    rw [hc _ (List.getElem_mem _)]
    norm_num
  unfold waveRadius
  rw [hval]
  ring

/-- Witness for C6 at `td = [128]`, `baseR = 10`, a 100×100 surface and
`pulse = 1/2`. -/
theorem waveform_spec_witness :
    (waveRadii [128] 10 (waveAmp 100 100 (1 / 2))).length = 256 ∧
    (∀ r ∈ waveRadii [128] 10 (waveAmp 100 100 (1 / 2)), r = 10) ∧
    (waveSegments [128] 10 (waveAmp 100 100 (1 / 2))).length = 256 :=
  waveform_spec [128] 10 100 100 (1 / 2) (by norm_num) (by decide)

/-- C10: every read of the time-domain array by the waveform ring is in
bounds: for a nonempty array and point index `i < 256`, the sampled
index `waveIdx i M = ⌊i/256 · M⌋` lies in `[0, M-1]`. -/
theorem waveIdx_inBounds (td : ByteArr) (i : ℕ)
    (hM : 1 ≤ td.length) (hi : i < wavePoints) :
    waveIdx i td.length < td.length :=
  waveIdx_lt_of_pos hM hi

/-- Witness for C10 at `td = [0]`, `i = 255`. -/
theorem waveIdx_inBounds_witness :
    waveIdx 255 ([0] : ByteArr).length < ([0] : ByteArr).length :=
  waveIdx_inBounds [0] 255 (by norm_num) (by norm_num [wavePoints])

end MusicVisualizer
